import Mathlib

/-!
Verification of the RSA-accumulator core (`src/accumulator.rs`, `src/hash.rs`)
of the `rust-accumulators` repository, by a shallow embedding into Lean.

Big unsigned integers (`BigUint`) are embedded as `Nat`, signed big integers
(`BigInt`) as `Int`.  Rust functions that can panic are embedded with an
explicit `Outcome`/`Option` result.  The helper module `crate::math`
(`modpow_uint_int`, `shamir_trick`) and the num-bigint extended GCD are not
part of the two source files; they are modelled from the specification
(§4.A, §4.B) where noted.
-/

namespace RustAcc

/-- Modelled from the spec: the extended GCD (`ExtendedGcd::extended_gcd` of
num-bigint, spec §4.A) returns `(gcd, a, b)` with `a·x + b·y = gcd`.
Implemented with a structural fuel (`fuel > x` suffices) so that it reduces
in the kernel; the recursion is the classical Euclidean one. -/
def egcdAux : Nat → Nat → Nat → Nat × Int × Int
  | 0, _, b => (b, 0, 1)
  | fuel+1, a, b =>
    if a = 0 then (b, 0, 1)
    else
      let r := egcdAux fuel (b % a) a
      (r.1, r.2.2 - ((b / a : Nat) : Int) * r.2.1, r.2.1)

/-- Modelled from the spec: extended GCD, `egcd x y = (g, a, b)` with
`a·x + b·y = g = gcd x y`. -/
def egcd (a b : Nat) : Nat × Int × Int := egcdAux (a + 1) a b

/-- Modelled from the spec: `mod_inverse` (num-bigint / spec §4.A): returns
the inverse of `b` modulo `n` when `gcd(b, n) = 1`, and `none` otherwise. -/
def modInverse (b n : Nat) : Option Nat :=
  let r := egcd b n
  if r.1 = 1 then some ((r.2.1 % (n : Int)).toNat) else none

/-- Modelled from the spec: `modpow_uint_int` = `modpow_signed(b, e, n)`
(spec §4.A): if `e ≥ 0` return `b^e mod n`; if `e < 0` return
`(b⁻¹ mod n)^|e| mod n`, failing (`none`, a panic at the call sites via
`expect`) iff `b` is not invertible mod `n`. -/
def modpow_uint_int (b : Nat) (e : Int) (n : Nat) : Option Nat :=
  if 0 ≤ e then some (b ^ e.toNat % n)
  else (modInverse b n).map (fun bi => bi ^ e.natAbs % n)

/-- Modelled from the spec: `shamir_trick(w_x, w_y, x, y, n)` (spec §4.B):
`(a, b) ← Bézout(x, y)` with `a·x + b·y = 1`; return `w_x^b · w_y^a mod n`
using signed modpow.  Returns `none` iff `gcd(x, y) ≠ 1` (a non-invertible
base inside the signed modpow is a fatal abort, also embedded as `none`). -/
def shamir_trick (wx wy x y n : Nat) : Option Nat :=
  let r := egcd x y
  if r.1 = 1 then
    match modpow_uint_int wx r.2.2 n, modpow_uint_int wy r.2.1 n with
    | some u, some v => some (u * v % n)
    | _, _ => none
  else none

/-- The `Accumulator` struct of `src/accumulator.rs`. -/
structure State where
  int_size_bits : Nat
  g : Nat
  n : Nat
  root : Nat
  set : Nat
deriving DecidableEq

/-- Result of a Rust call that may panic: `.ok a` is a normal return,
`.panicked` is an aborted call (`unwrap`/`expect` on `None`). -/
inductive Outcome (α : Type) where
  | ok : α → Outcome α
  | panicked : Outcome α
deriving DecidableEq

/-- Rust `fn state(&self) -> &BigUint { &self.root }` -/
def state (st : State) : Nat := st.root

/-- Rust `fn add(&mut self, x: &BigUint)`: `set *= x; root = root.modpow(x, n)`. -/
def add (st : State) (x : Nat) : State :=
  { st with set := st.set * x, root := st.root ^ x % st.n }

/-- Rust `fn mem_wit_create(&self, x: &BigUint) -> BigUint`:
`let (set, r) = self.set.div_rem(x); g.modpow(set, n)`
(the `debug_assert!(r.is_zero())` is a debug-only check). -/
def mem_wit_create (st : State) (x : Nat) : Nat :=
  st.g ^ (st.set / x) % st.n

/-- Rust `fn ver_mem(&self, w, x) -> bool`: `w.modpow(x, n) == root`. -/
def ver_mem (st : State) (w x : Nat) : Bool :=
  w ^ x % st.n == st.root

/-- Rust `fn del(&mut self, x) -> Option<()>`: divides `set` by `x` (BigUint
floor division), returns `None` iff the division left `set` unchanged,
otherwise recomputes `root = g.modpow(set, n)`. -/
def del (st : State) (x : Nat) : State × Option Unit :=
  let newSet := st.set / x
  if newSet = st.set then ({ st with set := newSet }, none)
  else ({ st with set := newSet, root := st.g ^ newSet % st.n }, some ())

/-- Rust `fn non_mem_wit_create(&self, x) -> (BigUint, BigInt)`:
`(_, a, b) = extended_gcd(x, set)`; `d = modpow_uint_int(g, a, n).expect(..)`;
returns `(d, b)`.  The `expect` panic is embedded as `none`. -/
def non_mem_wit_create (st : State) (x : Nat) : Option (Nat × Int) :=
  let r := egcd x st.set
  (modpow_uint_int st.g r.2.1 st.n).map (fun d => (d, r.2.2))

/-- Rust `fn ver_non_mem(&self, w: &(BigUint, BigInt), x) -> bool`:
`a_b = modpow_uint_int(root, b, n).expect(..)`; `d_x = d.modpow(x, n)`;
`(d_x * a_b) % n == g`.  The `expect` panic is embedded as `none`. -/
def ver_non_mem (st : State) (w : Nat × Int) (x : Nat) : Option Bool :=
  (modpow_uint_int st.root w.2 st.n).map
    (fun ab => w.1 ^ x % st.n * ab % st.n == st.g)

/-- Rust `fn batch_add(&mut self, xs) -> BigUint`: one pass accumulating
`x_star = ∏ xs` and `set *= x`; then `root = root.modpow(x_star, n)` and an
NI-PoE proof of the update.  `nipoe x u w n` stands for
`proofs::ni_poe_prove(x, u, w, n)` (not under `src/`, a pure function of its
arguments; no claim depends on its value, so it is a parameter). -/
def batch_add (nipoe : Nat → Nat → Nat → Nat → Nat) (st : State)
    (xs : List Nat) : State × Nat :=
  let x_star := xs.foldl (fun a x => a * x) 1
  let newSet := xs.foldl (fun a x => a * x) st.set
  let newRoot := st.root ^ x_star % st.n
  ({ st with set := newSet, root := newRoot }, nipoe x_star st.root newRoot st.n)

/-- The loop of `batch_del` over the pairs after the first: each step does
`new_root = shamir_trick(new_root, wi, x_star, xi, n).unwrap()` (panic on
`None`), `x_star *= xi`, `set /= xi`.  Returns the final
`(x_star, new_root, set)`. -/
def batchDelLoop (n : Nat) :
    List (Nat × Nat) → Nat → Nat → Nat → Outcome (Nat × Nat × Nat)
  | [], x_star, new_root, s => .ok (x_star, new_root, s)
  | (xi, wi) :: rest, x_star, new_root, s =>
    match shamir_trick new_root wi x_star xi n with
    | none => .panicked
    | some r => batchDelLoop n rest (x_star * xi) r (s / xi)

/-- Rust `fn batch_del(&mut self, pairs) -> Option<BigUint>`: returns `None` on an
empty list; otherwise initialises `(x_star, new_root)` from the first pair
(note: `set` is *not* divided by the first `x₀`), folds the remaining pairs
through `shamir_trick` (unwrap = panic), sets `root = new_root` and returns
an NI-PoE proof `nipoe x_star root root_old n`.
`.ok (st, r)` is a normal return of `r`; `.panicked` is an abort. -/
def batch_del (nipoe : Nat → Nat → Nat → Nat → Nat) (st : State)
    (pairs : List (Nat × Nat)) : Outcome (State × Option Nat) :=
  match pairs with
  | [] => .ok (st, none)
  | (x0, w0) :: rest =>
    match batchDelLoop st.n rest x0 w0 st.set with
    | .panicked => .panicked
    | .ok (x_star, new_root, s) =>
      .ok ({ st with set := s, root := new_root },
           some (nipoe x_star new_root st.root st.n))

/-- Rust `fn del_w_mem(&mut self, w, x) -> Option<()>`: if `ver_mem(w, x)` fails
return `None`; else `set /= x; root = w`. -/
def del_w_mem (st : State) (w x : Nat) : State × Option Unit :=
  if ver_mem st w x then ({ st with set := st.set / x, root := w }, some ())
  else (st, none)

/-- Rust `fn mem_wit_x(&self, _other, w_x, w_y, _x, _y) -> BigUint`:
`(w_x * w_y) % n` (the `_other`, `_x`, `_y` arguments are ignored). -/
def mem_wit_x (st : State) (_othr wx wy _x _y : Nat) : Nat :=
  wx * wy % st.n

/-- Rust `fn ver_mem_x(&self, other, pi, x, y) -> bool`: return `false` unless
`gcd(x, y) = 1`; else accept iff
`pi.modpow(x*y, n) == (root.modpow(y, n) * other.modpow(x, n)) % n`. -/
def ver_mem_x (st : State) (othr pi x y : Nat) : Bool :=
  if Nat.gcd x y = 1 then
    pi ^ (x * y) % st.n == st.root ^ y % st.n * (othr ^ x % st.n) % st.n
  else false

/-! ### `src/hash.rs` -/

/-- Big-endian interpretation of a byte string (`BigUint::from_bytes_be`). -/
def bytesToNatBE (l : List UInt8) : Nat :=
  l.foldl (fun acc b => acc * 256 + b.toNat) 0

def natToBytesBEAux : Nat → Nat → List UInt8 → List UInt8
  | 0, _, acc => acc
  | fuel+1, x, acc =>
    if x = 0 then acc
    else natToBytesBEAux fuel (x / 256) (UInt8.ofNat (x % 256) :: acc)

/-- Minimal big-endian byte encoding (`BigUint::to_bytes_be`; `[0]` for 0). -/
def natToBytesBE (x : Nat) : List UInt8 :=
  if x = 0 then [0] else natToBytesBEAux (x + 1) x []

/-- The `while` loop of `hash_prime`.  `pp y 20` stands for
`probably_prime(&y, 20)` (rsa crate) and `digest` for `D::digest`; both are
external/generic and therefore parameters of the embedding.  `fuel` bounds
the number of iterations, which the source does not: `none` means the loop
did not terminate within `fuel` steps. -/
def hashPrimeLoop (pp : Nat → Nat → Bool) (digest : List UInt8 → List UInt8) :
    Nat → Nat → Option Nat
  | 0, _ => none
  | fuel+1, y =>
    if pp y 20 then some y
    else hashPrimeLoop pp digest fuel
      (bytesToNatBE ((digest (natToBytesBE y)).take 16))

/-- Rust `fn hash_prime<O, D>(input: &[u8]) -> BigUint` of `src/hash.rs`:
`y ← BE(digest(input)[..16])`; `while !probably_prime(&y, 20)`
`{ y ← BE(digest(BE(y))[..16]) }`; return `y`. -/
def hash_prime (pp : Nat → Nat → Bool) (digest : List UInt8 → List UInt8)
    (input : List UInt8) (fuel : Nat) : Option Nat :=
  hashPrimeLoop pp digest fuel (bytesToNatBE ((digest input).take 16))

/-- The candidate sequence of `hash_prime`: `y₀ = BE(digest(input)[..16])`,
`y_{k+1} = BE(digest(BE(y_k))[..16])`. -/
def hashPrimeSeq (digest : List UInt8 → List UInt8) (input : List UInt8) :
    Nat → Nat
  | 0 => bytesToNatBE ((digest input).take 16)
  | k+1 =>
    bytesToNatBE ((digest (natToBytesBE (hashPrimeSeq digest input k))).take 16)

/-- Concrete "probable prime" test used by the `hash_prime` witness. -/
def ppOdd : Nat → Nat → Bool := fun y _ => y % 2 == 1

/-- Concrete 16-byte digest used by the `hash_prime` witness. -/
def digestLen : List UInt8 → List UInt8 :=
  fun m => List.replicate 15 (0 : UInt8) ++ [UInt8.ofNat (m.length + 1)]

/-! ### Correctness of the extended GCD -/

theorem egcdAux_spec : ∀ fuel a b, a < fuel →
    (egcdAux fuel a b).1 = Nat.gcd a b ∧
    (egcdAux fuel a b).2.1 * (a : Int) + (egcdAux fuel a b).2.2 * (b : Int)
      = (Nat.gcd a b : Int) := by
  intro fuel
  induction fuel with
  | zero => intro a b h; exact absurd h (Nat.not_lt_zero a)
  | succ fuel ih =>
    intro a b hab
    by_cases ha : a = 0
    · subst ha; simp [egcdAux]
    · have hpos : 0 < a := Nat.pos_of_ne_zero ha
      have hlt : b % a < fuel := lt_of_lt_of_le (Nat.mod_lt b hpos) (by omega)
      obtain ⟨h1, h2⟩ := ih (b % a) a hlt
      have hgr : Nat.gcd a b = Nat.gcd (b % a) a := Nat.gcd_rec a b
      have hdm : (a : Int) * ((b / a : Nat) : Int) + ((b % a : Nat) : Int)
          = (b : Int) := by exact_mod_cast Nat.div_add_mod b a
      simp only [egcdAux, ha, if_false]
      refine ⟨by rw [h1, hgr], ?_⟩
      rw [hgr]
      linear_combination h2 - ((egcdAux fuel (b % a) a).2.1) * hdm

theorem egcd_gcd (a b : Nat) : (egcd a b).1 = Nat.gcd a b :=
  (egcdAux_spec (a + 1) a b (Nat.lt_succ_self a)).1

theorem egcd_bezout (a b : Nat) :
    (egcd a b).2.1 * (a : Int) + (egcd a b).2.2 * (b : Int) = (Nat.gcd a b : Int) :=
  (egcdAux_spec (a + 1) a b (Nat.lt_succ_self a)).2

/-- Reducing mod `n` does not change the gcd. -/
theorem gcd_mod_left (a n : Nat) : Nat.gcd (a % n) n = Nat.gcd a n := by
  have h : Nat.gcd a n = Nat.gcd (a % n) n := by
    rw [Nat.gcd_comm a n]; exact Nat.gcd_rec n a
  exact h.symm

/-- Lemma: `modInverse` returns a correct inverse below `n` whenever `gcd(b,n) = 1`. -/
theorem modInverse_spec {b n : Nat} (hb : Nat.gcd b n = 1) (hn : 1 < n) :
    ∃ i, modInverse b n = some i ∧ i < n ∧ b * i % n = 1 := by
  have hg : (egcd b n).1 = 1 := by rw [egcd_gcd]; exact hb
  have hbez : (egcd b n).2.1 * (b : Int) + (egcd b n).2.2 * (n : Int) = 1 := by
    have := egcd_bezout b n; rw [hb] at this; exact_mod_cast this
  set a : Int := (egcd b n).2.1 with hadef
  set c : Int := (egcd b n).2.2 with hcdef
  have hnpos : (0 : Int) < n := by exact_mod_cast Nat.lt_of_lt_of_le Nat.zero_lt_one hn.le
  have hmod_nonneg : 0 ≤ a % n := Int.emod_nonneg a (by omega)
  have hmod_lt : a % n < n := Int.emod_lt_of_pos a hnpos
  refine ⟨(a % (n : Int)).toNat, ?_, ?_, ?_⟩
  · simp [modInverse, hg]
  · omega
  · -- work over ℤ: b * (a % n) ≡ b * a = 1 - c * n ≡ 1 (mod n)
    have hi : ((a % (n : Int)).toNat : Int) = a % n := Int.toNat_of_nonneg hmod_nonneg
    have key : ((b : Int) * (a % (n : Int)).toNat) % n = 1 := by
      rw [hi]
      calc ((b : Int) * (a % n)) % n
          = ((b : Int) % n * ((a % n) % n)) % n := by rw [Int.mul_emod]
        _ = ((b : Int) % n * (a % n)) % n := by rw [Int.emod_emod_of_dvd _ dvd_rfl]
        _ = ((b : Int) * a) % n := by rw [← Int.mul_emod]
        _ = (a * b) % n := by ring_nf
        _ = (1 + (n : Int) * (-c)) % n := by
              congr 1; linear_combination hbez
        _ = 1 % n := Int.add_mul_emod_self_left 1 (n : Int) (-c)
        _ = 1 := Int.emod_eq_of_lt (by omega) (by omega)
    have hcast : ((b * (a % (n : Int)).toNat : Nat) : Int) % (n : Int) = 1 := by
      push_cast; exact key
    exact_mod_cast hcast

/-! ### Bridge from the `Nat` computations to the group `(ZMod n)ˣ` -/

/-- Nat casts below `n` are injective in `ZMod n`. -/
theorem natCast_zmod_inj {n a b : Nat} (ha : a < n) (hb : b < n)
    (h : (a : ZMod n) = (b : ZMod n)) : a = b := by
  have hv := congrArg ZMod.val h
  rwa [ZMod.val_cast_of_lt ha, ZMod.val_cast_of_lt hb] at hv

/-- Lemma: `modpow_uint_int b e n` succeeds on an invertible base and computes the
signed power `U^e` of the unit `U` of `b` in `(ZMod n)ˣ`. -/
theorem modpow_uint_int_spec {n : Nat} (hn : 1 < n) (b : Nat) (e : Int)
    (hb : Nat.Coprime b n) :
    ∃ r, modpow_uint_int b e n = some r ∧ r < n ∧
      (r : ZMod n) = ((ZMod.unitOfCoprime b hb ^ e : (ZMod n)ˣ) : ZMod n) := by
  have hn0 : 0 < n := by omega
  by_cases he : 0 ≤ e
  · refine ⟨b ^ e.toNat % n, by simp [modpow_uint_int, he], Nat.mod_lt _ hn0, ?_⟩
    calc ((b ^ e.toNat % n : Nat) : ZMod n)
        = ((b : ZMod n)) ^ e.toNat := by rw [ZMod.natCast_mod, Nat.cast_pow]
      _ = ((ZMod.unitOfCoprime b hb : (ZMod n)ˣ) : ZMod n) ^ e.toNat := by
            rw [ZMod.coe_unitOfCoprime]
      _ = ((ZMod.unitOfCoprime b hb ^ e.toNat : (ZMod n)ˣ) : ZMod n) := by
            rw [Units.val_pow_eq_pow_val]
      _ = ((ZMod.unitOfCoprime b hb ^ e : (ZMod n)ˣ) : ZMod n) := by
            conv_rhs =>
              rw [show e = ((e.toNat : Nat) : Int) from (Int.toNat_of_nonneg he).symm,
                zpow_natCast]
  · push_neg at he
    obtain ⟨i, hsome, hilt, hbi⟩ := modInverse_spec hb hn
    refine ⟨i ^ e.natAbs % n, ?_, Nat.mod_lt _ hn0, ?_⟩
    · simp [modpow_uint_int, not_le.mpr he, hsome]
    · have hmul : (b : ZMod n) * (i : ZMod n) = 1 := by
        have hc : ((b * i % n : Nat) : ZMod n) = ((1 : Nat) : ZMod n) := by rw [hbi]
        rwa [ZMod.natCast_mod, Nat.cast_mul, Nat.cast_one] at hc
      have hinv : ((ZMod.unitOfCoprime b hb)⁻¹ : (ZMod n)ˣ).val = (i : ZMod n) := by
        calc ((ZMod.unitOfCoprime b hb)⁻¹ : (ZMod n)ˣ).val
            = ((ZMod.unitOfCoprime b hb)⁻¹ : (ZMod n)ˣ).val * ((b : ZMod n) * i) := by
              rw [hmul, mul_one]
          _ = (((ZMod.unitOfCoprime b hb)⁻¹ : (ZMod n)ˣ).val *
                (ZMod.unitOfCoprime b hb : (ZMod n)ˣ).val) * (i : ZMod n) := by
              rw [ZMod.coe_unitOfCoprime, mul_assoc]
          _ = (i : ZMod n) := by rw [Units.inv_mul, one_mul]
      have hpow : ZMod.unitOfCoprime b hb ^ e
          = ((ZMod.unitOfCoprime b hb)⁻¹) ^ e.natAbs := by
        conv_lhs => rw [show e = -((e.natAbs : Nat) : Int) from by omega]
        rw [zpow_neg, zpow_natCast, ← inv_pow]
      calc ((i ^ e.natAbs % n : Nat) : ZMod n)
          = ((i : ZMod n)) ^ e.natAbs := by rw [ZMod.natCast_mod, Nat.cast_pow]
        _ = (((ZMod.unitOfCoprime b hb)⁻¹ : (ZMod n)ˣ).val) ^ e.natAbs := by rw [hinv]
        _ = (((ZMod.unitOfCoprime b hb)⁻¹ ^ e.natAbs : (ZMod n)ˣ) : ZMod n) := by
              rw [Units.val_pow_eq_pow_val]
        _ = ((ZMod.unitOfCoprime b hb ^ e : (ZMod n)ˣ) : ZMod n) := by rw [hpow]

/-! ### Claim theorems -/

/-- C5: for every accumulator state satisfying I1 and every `x` dividing
`set`, `mem_wit_create x` returns `g^(set/x) mod n`, and `ver_mem` accepts
that witness. -/
theorem mem_wit_create_sound (st : State)
    (hI1 : st.g ^ st.set % st.n = st.root) (x : Nat) (_hx : 0 < x)
    (hdvd : x ∣ st.set) :
    mem_wit_create st x = st.g ^ (st.set / x) % st.n ∧
    ver_mem st (mem_wit_create st x) x = true := by
  refine ⟨rfl, ?_⟩
  simp only [ver_mem, mem_wit_create, beq_iff_eq]
  rw [← Nat.pow_mod, ← pow_mul, Nat.div_mul_cancel hdvd, hI1]

/-- C5 witness: the state `(g, n, root, set) = (2, 35, 8, 15)` with member 3. -/
theorem mem_wit_create_sound_witness :
    mem_wit_create ⟨0, 2, 35, 8, 15⟩ 3 = 2 ^ (15 / 3) % 35 ∧
    ver_mem ⟨0, 2, 35, 8, 15⟩ (mem_wit_create ⟨0, 2, 35, 8, 15⟩ 3) 3 = true :=
  mem_wit_create_sound ⟨0, 2, 35, 8, 15⟩ (by decide) 3 (by decide) (by decide)

/-- C6: `add x` multiplies `set` by `x`, raises `root` to the `x`-th power
mod `n`, and preserves the invariant `g^set mod n = root`. -/
theorem add_sound (st : State) (x : Nat)
    (hI1 : st.g ^ st.set % st.n = st.root) :
    (add st x).set = st.set * x ∧ (add st x).root = st.root ^ x % st.n ∧
    (add st x).g ^ (add st x).set % (add st x).n = (add st x).root := by
  refine ⟨rfl, rfl, ?_⟩
  show st.g ^ (st.set * x) % st.n = st.root ^ x % st.n
  rw [pow_mul, Nat.pow_mod, hI1]

/-- C6 witness: adding 7 to the state `(g, n, root, set) = (2, 35, 8, 15)`. -/
theorem add_sound_witness :
    (add ⟨0, 2, 35, 8, 15⟩ 7).set = 15 * 7 ∧
    (add ⟨0, 2, 35, 8, 15⟩ 7).root = 8 ^ 7 % 35 ∧
    (add ⟨0, 2, 35, 8, 15⟩ 7).g ^ (add ⟨0, 2, 35, 8, 15⟩ 7).set
        % (add ⟨0, 2, 35, 8, 15⟩ 7).n = (add ⟨0, 2, 35, 8, 15⟩ 7).root :=
  add_sound ⟨0, 2, 35, 8, 15⟩ 7 (by decide)

/-- C7: `ver_mem_x` rejects non-coprime `(x, y)`; for coprime `(x, y)` it
accepts exactly when `π^(x·y) ≡ root^y · other^x (mod n)`; and `mem_wit_x`
returns `(w_x · w_y) mod n`. -/
theorem mem_wit_x_ver_mem_x_sound (st : State) (othr pi x y wx wy : Nat) :
    (Nat.gcd x y ≠ 1 → ver_mem_x st othr pi x y = false) ∧
    (Nat.gcd x y = 1 →
      (ver_mem_x st othr pi x y = true ↔
        pi ^ (x * y) % st.n = st.root ^ y * othr ^ x % st.n)) ∧
    mem_wit_x st othr wx wy x y = wx * wy % st.n := by
  refine ⟨?_, ?_, rfl⟩
  · intro h; simp [ver_mem_x, h]
  · intro h
    simp only [ver_mem_x, if_pos h]
    rw [beq_iff_eq, ← Nat.mul_mod]

/-- C7 witness: concrete cases of `mem_wit_x_ver_mem_x_sound` on the state
`(2, 35, 8, 15)`: rejection at `(x, y) = (2, 4)`, the acceptance equivalence
at `(2, 3)`, and the product formula. -/
theorem mem_wit_x_ver_mem_x_sound_witness :
    ver_mem_x ⟨0, 2, 35, 8, 15⟩ 9 4 2 4 = false ∧
    (ver_mem_x ⟨0, 2, 35, 8, 15⟩ 9 4 2 3 = true ↔
      4 ^ (2 * 3) % 35 = 8 ^ 3 * 9 ^ 2 % 35) ∧
    mem_wit_x ⟨0, 2, 35, 8, 15⟩ 9 6 7 2 4 = 6 * 7 % 35 :=
  ⟨(mem_wit_x_ver_mem_x_sound ⟨0, 2, 35, 8, 15⟩ 9 4 2 4 6 7).1 (by decide),
   (mem_wit_x_ver_mem_x_sound ⟨0, 2, 35, 8, 15⟩ 9 4 2 3 6 7).2.1 (by decide),
   (mem_wit_x_ver_mem_x_sound ⟨0, 2, 35, 8, 15⟩ 9 4 2 4 6 7).2.2⟩

/-- C10: `batch_del` on the empty list returns `None` (no proof) and leaves
the state — in particular `root` and `set` — unchanged. -/
theorem batch_del_empty (nipoe : Nat → Nat → Nat → Nat → Nat) (st : State) :
    batch_del nipoe st [] = .ok (st, none) := rfl

/-- C1: evaluation at the failing input.  The state
`(g, n, root, set) = (2, 35, 8, 15)` satisfies I1 and accumulates the
distinct odd primes 3 and 5, whose membership witnesses 32 and 8 are exactly
the ones `mem_wit_create` produces and `ver_mem` accepts; yet the successful
`batch_del [(3, 32), (5, 8)]` leaves `set = 3` (the first element is never
divided out) while `root` becomes `2 = g`, so `g^set mod n = 8 ≠ 2 = root`
and I1 is broken. -/
theorem batch_del_breaks_invariant :
    (let st : State := ⟨0, 2, 35, 8, 15⟩
     st.g ^ st.set % st.n = st.root ∧
     mem_wit_create st 3 = 32 ∧ mem_wit_create st 5 = 8 ∧
     ver_mem st 32 3 = true ∧ ver_mem st 8 5 = true ∧
     batch_del (fun _ _ _ _ => 0) st [(3, 32), (5, 8)]
       = .ok (⟨0, 2, 35, 2, 3⟩, some 0) ∧
     ¬ ((2 : Nat) ^ 3 % 35 = 2)) := by decide

/-- C2: evaluation at the failing input.  On a duplicated prime
(`gcd(x*, x₁) = 3 ≠ 1`) `batch_del` aborts (panics on
`shamir_trick(..).unwrap()`) instead of returning `None`. -/
theorem batch_del_panics_on_non_coprime :
    Nat.gcd 3 3 ≠ 1 ∧
    batch_del (fun _ _ _ _ => 0) ⟨0, 2, 35, 8, 15⟩ [(3, 32), (3, 32)]
      = .panicked := by decide

/-- C3: evaluation at the failing input.  With `set = 3` and `x = 2 ∤ 3`,
`del` returns success and floor-divides: the state becomes
`set = 1, root = g^1 mod n = 2`, although the claim requires `None` and an
unchanged state. -/
theorem del_succeeds_on_non_divisor :
    ¬ ((2 : Nat) ∣ 3) ∧
    del ⟨0, 2, 35, 8, 3⟩ 2 = (⟨0, 2, 35, 2, 1⟩, some ()) := by decide

/-- C9: every state-modifying operation (`add`, `del`, `batch_add`,
`batch_del`, `del_w_mem`) leaves the fields `g`, `n` and `int_size_bits`
unchanged; the remaining interface functions take `&self` and are embedded
as pure functions that return no state at all. -/
theorem mutators_preserve_parameters (st : State) (x w : Nat)
    (xs : List Nat) (pairs : List (Nat × Nat))
    (nipoe : Nat → Nat → Nat → Nat → Nat) :
    ((add st x).g = st.g ∧ (add st x).n = st.n ∧
      (add st x).int_size_bits = st.int_size_bits) ∧
    ((del st x).1.g = st.g ∧ (del st x).1.n = st.n ∧
      (del st x).1.int_size_bits = st.int_size_bits) ∧
    ((batch_add nipoe st xs).1.g = st.g ∧ (batch_add nipoe st xs).1.n = st.n ∧
      (batch_add nipoe st xs).1.int_size_bits = st.int_size_bits) ∧
    (∀ out, batch_del nipoe st pairs = .ok out →
      out.1.g = st.g ∧ out.1.n = st.n ∧
      out.1.int_size_bits = st.int_size_bits) ∧
    ((del_w_mem st w x).1.g = st.g ∧ (del_w_mem st w x).1.n = st.n ∧
      (del_w_mem st w x).1.int_size_bits = st.int_size_bits) := by
  refine ⟨⟨rfl, rfl, rfl⟩, ?_, ⟨rfl, rfl, rfl⟩, ?_, ?_⟩
  · unfold del; dsimp only; split <;> exact ⟨rfl, rfl, rfl⟩
  · intro out hout
    match pairs with
    | [] =>
      simp only [batch_del, Outcome.ok.injEq] at hout
      rw [← hout]
      exact ⟨rfl, rfl, rfl⟩
    | (x0, w0) :: rest =>
      simp only [batch_del] at hout
      cases hloop : batchDelLoop st.n rest x0 w0 st.set with
      | panicked => rw [hloop] at hout; exact absurd hout (by simp)
      | ok triple =>
        rw [hloop] at hout
        obtain ⟨xs_, nr, s⟩ := triple
        simp only [Outcome.ok.injEq] at hout
        rw [← hout]
        exact ⟨rfl, rfl, rfl⟩
  · unfold del_w_mem; split <;> exact ⟨rfl, rfl, rfl⟩

/-- C9 witness: the frame conditions instantiated on the state
`(2, 35, 8, 15)`, including a successful `batch_del` run. -/
theorem mutators_preserve_parameters_witness :
    ((add ⟨0, 2, 35, 8, 15⟩ 7).g = 2 ∧ (add ⟨0, 2, 35, 8, 15⟩ 7).n = 35 ∧
      (add ⟨0, 2, 35, 8, 15⟩ 7).int_size_bits = 0) ∧
    ((⟨0, 2, 35, 2, 3⟩ : State).g = 2 ∧ (⟨0, 2, 35, 2, 3⟩ : State).n = 35 ∧
      (⟨0, 2, 35, 2, 3⟩ : State).int_size_bits = 0) :=
  ⟨⟨((mutators_preserve_parameters ⟨0, 2, 35, 8, 15⟩ 7 0 [] [(3, 32), (5, 8)]
        (fun _ _ _ _ => 0)).1.1),
    ((mutators_preserve_parameters ⟨0, 2, 35, 8, 15⟩ 7 0 [] [(3, 32), (5, 8)]
        (fun _ _ _ _ => 0)).1.2.1),
    ((mutators_preserve_parameters ⟨0, 2, 35, 8, 15⟩ 7 0 [] [(3, 32), (5, 8)]
        (fun _ _ _ _ => 0)).1.2.2)⟩,
   (mutators_preserve_parameters ⟨0, 2, 35, 8, 15⟩ 7 0 [] [(3, 32), (5, 8)]
        (fun _ _ _ _ => 0)).2.2.2.1 (⟨0, 2, 35, 2, 3⟩, some 0) (by decide)⟩

/-- C4 counterexample: the state `(g, n, root, set) = (1, 35, 1, 3)`
satisfies I1 with `g` invertible mod `n`, the odd prime `y = 3` has
`gcd(y, set) = 3 ≠ 1`, yet `ver_non_mem (non_mem_wit_create y) y` returns
`true`: the check `d^x · root^b ≡ g (mod n)` always computes
`g^gcd(x, set)`, which equals `g` for degenerate generators. -/
theorem ver_non_mem_accepts_member :
    (let st : State := ⟨0, 1, 35, 1, 3⟩
     st.g ^ st.set % st.n = st.root ∧ Nat.gcd st.g st.n = 1 ∧
     st.g < st.n ∧ 1 < st.n ∧ Nat.Prime 3 ∧ 3 % 2 = 1 ∧
     Nat.gcd 3 st.set ≠ 1 ∧
     (non_mem_wit_create st 3).bind (fun w => ver_non_mem st w 3)
       = some true) := by decide

/-- C4 (amended): for every state satisfying I1 with `g` invertible mod `n`
(`1 < n`, `g < n`) and every odd prime `y`, `non_mem_wit_create y` succeeds
with some `(d, b)`, and `ver_non_mem (d, b) y` accepts **iff**
`g^gcd(y, set) ≡ g (mod n)`; in particular it accepts whenever
`gcd(y, set) = 1`. -/
theorem ver_non_mem_iff_pow_gcd (st : State)
    (hI1 : st.g ^ st.set % st.n = st.root)
    (hg : Nat.gcd st.g st.n = 1) (hn : 1 < st.n) (hglt : st.g < st.n)
    (y : Nat) (_hy : Nat.Prime y) (_hodd : y % 2 = 1) :
    ∃ d b, non_mem_wit_create st y = some (d, b) ∧
      (ver_non_mem st (d, b) y = some true ↔
        st.g ^ Nat.gcd y st.set % st.n = st.g) ∧
      (Nat.gcd y st.set = 1 → ver_non_mem st (d, b) y = some true) := by
  have hn0 : 0 < st.n := by omega
  have hgc : Nat.Coprime st.g st.n := hg
  have hrootc : Nat.Coprime st.root st.n := by
    unfold Nat.Coprime
    rw [← hI1, gcd_mod_left]
    exact Nat.Coprime.pow_left _ hgc
  have hbez : (egcd y st.set).2.1 * (y : Int) +
      (egcd y st.set).2.2 * (st.set : Int) = (Nat.gcd y st.set : Int) :=
    egcd_bezout y st.set
  obtain ⟨d, hdeq, hdlt, hdcast⟩ :=
    modpow_uint_int_spec hn st.g (egcd y st.set).2.1 hgc
  obtain ⟨ab, habeq, hablt, habcast⟩ :=
    modpow_uint_int_spec hn st.root (egcd y st.set).2.2 hrootc
  have hRU : ZMod.unitOfCoprime st.root hrootc
      = ZMod.unitOfCoprime st.g hgc ^ st.set := by
    apply Units.ext
    rw [Units.val_pow_eq_pow_val, ZMod.coe_unitOfCoprime, ZMod.coe_unitOfCoprime,
      ← Nat.cast_pow, ← hI1, ZMod.natCast_mod]
  -- the verification equation always computes `g ^ gcd(y, set) mod n`
  have hXcast : ((d ^ y % st.n * ab % st.n : Nat) : ZMod st.n)
      = ((st.g ^ Nat.gcd y st.set % st.n : Nat) : ZMod st.n) := by
    calc ((d ^ y % st.n * ab % st.n : Nat) : ZMod st.n)
        = ((d : ZMod st.n)) ^ y * (ab : ZMod st.n) := by
          rw [ZMod.natCast_mod, Nat.cast_mul, ZMod.natCast_mod, Nat.cast_pow]
      _ = (((ZMod.unitOfCoprime st.g hgc ^ (egcd y st.set).2.1) ^ (y : Nat)
            * ZMod.unitOfCoprime st.root hrootc ^ (egcd y st.set).2.2 :
            (ZMod st.n)ˣ) : ZMod st.n) := by
          rw [hdcast, habcast, ← Units.val_pow_eq_pow_val, Units.val_mul]
      _ = ((ZMod.unitOfCoprime st.g hgc
            ^ ((egcd y st.set).2.1 * (y : Int)
              + (st.set : Int) * (egcd y st.set).2.2) :
            (ZMod st.n)ˣ) : ZMod st.n) := by
          rw [hRU]
          congr 1
          rw [← zpow_natCast (ZMod.unitOfCoprime st.g hgc ^ (egcd y st.set).2.1) y,
            ← zpow_mul, ← zpow_natCast (ZMod.unitOfCoprime st.g hgc) st.set,
            ← zpow_mul, ← zpow_add]
      _ = ((ZMod.unitOfCoprime st.g hgc ^ (Nat.gcd y st.set : Int) :
            (ZMod st.n)ˣ) : ZMod st.n) := by
          congr 2
          linear_combination hbez
      _ = ((st.g ^ Nat.gcd y st.set % st.n : Nat) : ZMod st.n) := by
          rw [zpow_natCast, Units.val_pow_eq_pow_val, ZMod.coe_unitOfCoprime,
            ← Nat.cast_pow, ZMod.natCast_mod]
  have key : d ^ y % st.n * ab % st.n = st.g ^ Nat.gcd y st.set % st.n :=
    natCast_zmod_inj (Nat.mod_lt _ hn0) (Nat.mod_lt _ hn0) hXcast
  have hver : ver_non_mem st (d, (egcd y st.set).2.2) y
      = some (d ^ y % st.n * ab % st.n == st.g) := by
    simp [ver_non_mem, habeq]
  refine ⟨d, (egcd y st.set).2.2, ?_, ?_, ?_⟩
  · simp [non_mem_wit_create, hdeq]
  · rw [hver]
    simp only [Option.some.injEq, beq_iff_eq, key]
  · intro hgcd1
    rw [hver]
    simp only [Option.some.injEq, beq_iff_eq, key, hgcd1, pow_one]
    exact Nat.mod_eq_of_lt hglt

/-- C4 witness for the amended theorem: the state `(2, 35, 8, 15)` and the
fresh odd prime `y = 11` (`gcd(11, 15) = 1`): the produced witness is
`(11, 3)` and verification accepts. -/
theorem ver_non_mem_iff_pow_gcd_witness :
    ∃ d b, non_mem_wit_create ⟨0, 2, 35, 8, 15⟩ 11 = some (d, b) ∧
      (ver_non_mem ⟨0, 2, 35, 8, 15⟩ (d, b) 11 = some true ↔
        2 ^ Nat.gcd 11 15 % 35 = 2) ∧
      (Nat.gcd 11 15 = 1 →
        ver_non_mem ⟨0, 2, 35, 8, 15⟩ (d, b) 11 = some true) :=
  ver_non_mem_iff_pow_gcd ⟨0, 2, 35, 8, 15⟩ (by decide) (by decide) (by decide)
    (by decide) 11 (by decide) (by decide)

/-! ### `hash_prime` (C8) -/

theorem bytesToNatBE_foldl_lt (l : List UInt8) :
    ∀ acc, l.foldl (fun acc b => acc * 256 + b.toNat) acc
      < (acc + 1) * 256 ^ l.length := by
  induction l with
  | nil => intro acc; simp only [List.foldl_nil, List.length_nil, pow_zero,
      mul_one]; exact Nat.lt_succ_self acc
  | cons b t ih =>
    intro acc
    have hb : b.toNat < 256 := b.val.isLt
    calc List.foldl (fun acc b => acc * 256 + b.toNat) (acc * 256 + b.toNat) t
        < (acc * 256 + b.toNat + 1) * 256 ^ t.length := ih _
      _ ≤ (acc * 256 + 256) * 256 ^ t.length :=
          Nat.mul_le_mul_right _ (by omega)
      _ = (acc + 1) * 256 ^ (b :: t).length := by
          simp only [List.length_cons, pow_succ]; ring

theorem bytesToNatBE_take16_lt (l : List UInt8) :
    bytesToNatBE (l.take 16) < 2 ^ 128 := by
  have h1 : bytesToNatBE (l.take 16) < 1 * 256 ^ (l.take 16).length :=
    bytesToNatBE_foldl_lt (l.take 16) 0
  have h2 : (l.take 16).length ≤ 16 := by
    simp [List.length_take]
  calc bytesToNatBE (l.take 16)
      < 1 * 256 ^ (l.take 16).length := h1
    _ ≤ 1 * 256 ^ 16 :=
        Nat.mul_le_mul_left _ (Nat.pow_le_pow_right (by omega) h2)
    _ = 2 ^ 128 := by norm_num

theorem hashPrimeLoop_seq (pp : Nat → Nat → Bool)
    (digest : List UInt8 → List UInt8) (input : List UInt8) (y : Nat) :
    ∀ fuel k,
      hashPrimeLoop pp digest fuel (hashPrimeSeq digest input k) = some y →
      ∃ j, k ≤ j ∧ y = hashPrimeSeq digest input j ∧ pp y 20 = true ∧
        ∀ i, k ≤ i → i < j → pp (hashPrimeSeq digest input i) 20 = false := by
  intro fuel
  induction fuel with
  | zero => intro k h; exact absurd h (by simp [hashPrimeLoop])
  | succ fuel ih =>
    intro k h
    by_cases hpp : pp (hashPrimeSeq digest input k) 20 = true
    · have hy : y = hashPrimeSeq digest input k := by
        simp only [hashPrimeLoop, hpp, if_true, Option.some.injEq] at h
        exact h.symm
      exact ⟨k, le_refl k, hy, by rw [hy]; exact hpp,
        fun i h1 h2 => absurd (lt_of_le_of_lt h1 h2) (lt_irrefl k)⟩
    · have hppf : pp (hashPrimeSeq digest input k) 20 = false := by
        simpa using hpp
      have hstep :
          hashPrimeLoop pp digest fuel (hashPrimeSeq digest input (k + 1))
            = some y := by
        simpa only [hashPrimeLoop, hppf, if_false, hashPrimeSeq] using h
      obtain ⟨j, hkj, hyj, hppy, hfalse⟩ := ih (k + 1) hstep
      refine ⟨j, by omega, hyj, hppy, fun i h1 h2 => ?_⟩
      rcases Nat.eq_or_lt_of_le h1 with heq | hlt
      · rw [← heq]; exact hppf
      · exact hfalse i hlt h2

/-- C8: whenever `hash_prime` terminates, its value is the first member of
the sequence `y₀ = BE(digest(input)[..16])`,
`y_{k+1} = BE(digest(BE(y_k))[..16])` that passes the probable-prime test
with 20 rounds, and it is strictly below `2^128`. -/
theorem hash_prime_first_prime_in_seq (pp : Nat → Nat → Bool)
    (digest : List UInt8 → List UInt8) (input : List UInt8) (fuel y : Nat)
    (h : hash_prime pp digest input fuel = some y) :
    (∃ j, y = hashPrimeSeq digest input j ∧ pp y 20 = true ∧
      ∀ i, i < j → pp (hashPrimeSeq digest input i) 20 = false) ∧
    y < 2 ^ 128 := by
  have h0 : hashPrimeLoop pp digest fuel (hashPrimeSeq digest input 0)
      = some y := h
  obtain ⟨j, _, hyj, hppy, hfalse⟩ :=
    hashPrimeLoop_seq pp digest input y fuel 0 h0
  refine ⟨⟨j, hyj, hppy, fun i hij => hfalse i (Nat.zero_le i) hij⟩, ?_⟩
  rw [hyj]
  cases j with
  | zero => exact bytesToNatBE_take16_lt _
  | succ j => exact bytesToNatBE_take16_lt _

/-- C8 witness: with the concrete digest `digestLen` and oddness as the
probable-prime test, `hash_prime` on the empty input returns `1` within one
iteration, and the theorem's conclusion holds for it. -/
theorem hash_prime_first_prime_in_seq_witness :
    (∃ j, (1 : Nat) = hashPrimeSeq digestLen [] j ∧ ppOdd 1 20 = true ∧
      ∀ i, i < j → ppOdd (hashPrimeSeq digestLen [] i) 20 = false) ∧
    (1 : Nat) < 2 ^ 128 :=
  hash_prime_first_prime_in_seq ppOdd digestLen [] 1 1 (by decide)

end RustAcc
